import Mathlib

set_option linter.unusedSectionVars false

/-!
Verification of the council aggregation engine.

The model below is a shallow embedding of the engine:
* `CouncilCallState` mirrors `CouncilCallState.__init__` (council_class.py):
  `dependency_stack` (a Python list used as a LIFO stack), `pending_members`
  (a Python set, modelled as a `Finset`) and `partial_result` (a list).
  The call arguments are opaque to all claims and are omitted.
* `MemberAction` mirrors the taxonomy of return_value.py, with
  `joined` holding a list of parts.
* `execA` mirrors `MemberAction.__call__` of each variant; Python exceptions
  are modelled with `Except PyErr`.
* Member invocation (`call_next` / `__call__`) is modelled by the relations
  `Selects`, `Run` and `CallResult`; the pop of an arbitrary element from the
  pending set is modelled by allowing any member of the set.
-/

/-- The kinds of Python exception the engine's code can raise. -/
inductive PyErr where
  | valueError
  | keyError
  | indexError
  | zeroDivisionError
  | typeError
deriving DecidableEq, Repr

/-- The `MemberAction` taxonomy of return_value.py.  `cont` is `Continue`,
`brk` is `Break`; `joined` holds the parts of a `Joined` action. -/
inductive MemberAction (V M : Type) where
  | cont : MemberAction V M
  | brk : MemberAction V M
  | postpone (wait_for : List M) : MemberAction V M
  | enqueue (members : List M) : MemberAction V M
  | extend (groups : List (List V)) : MemberAction V M
  | append (values : List V) : MemberAction V M
  | removeResult (values : List V) : MemberAction V M
  | popResult (indices : List Int) : MemberAction V M
  | clearResult : MemberAction V M
  | joined (parts : List (MemberAction V M)) : MemberAction V M

/-- A member outcome: a plain value or an action (member contract §4.1). -/
inductive Outcome (V M : Type) where
  | value (v : V) : Outcome V M
  | action (a : MemberAction V M) : Outcome V M

/-- The per-call state built by `CouncilCallState.__init__`. -/
structure CouncilCallState (V M : Type) [DecidableEq M] where
  dependency_stack : List M
  pending_members : Finset M
  partial_result : List V

instance {V M : Type} [DecidableEq M] [DecidableEq V] :
    DecidableEq (CouncilCallState V M) := fun σ1 σ2 =>
  decidable_of_iff
    (σ1.dependency_stack = σ2.dependency_stack ∧
      σ1.pending_members = σ2.pending_members ∧
      σ1.partial_result = σ2.partial_result)
    (by cases σ1; cases σ2; simp)

section Model

variable {V M : Type} [DecidableEq M] [DecidableEq V]

/-- `Postpone.__init__`: an empty `wait_for` raises `ValueError` at
construction time; otherwise the `Postpone` action is built. -/
def mkPostpone (wait_for : List M) : Except PyErr (MemberAction V M) :=
  if wait_for.isEmpty then .error .valueError else .ok (.postpone wait_for)

/-- The loop of `Postpone.__call__`: each `wait_for` member is removed from
the pending set (`KeyError` if absent at that moment) and appended to the
dependency stack. -/
def postponeLoop : List M → CouncilCallState V M → Except PyErr (CouncilCallState V M)
  | [], σ => .ok σ
  | wf :: rest, σ =>
    if wf ∈ σ.pending_members then
      postponeLoop rest
        { σ with pending_members := σ.pending_members.erase wf,
                 dependency_stack := σ.dependency_stack ++ [wf] }
    else .error .keyError

/-- The loop of `RemoveResult.__call__`: each value is removed (first
occurrence) from the result; `ValueError` if a value is absent. -/
def removeLoop : List V → List V → Except PyErr (List V)
  | [], l => .ok l
  | v :: rest, l => if v ∈ l then removeLoop rest (l.erase v) else .error .valueError

/-- Python's `k % n` for a positive `n`: the representative in `[0, n)`. -/
def pyMod (k : Int) (n : Nat) : Nat := (k.emod (n : Int)).toNat

/-- Python's `list.pop(i)`: a negative `i` counts from the end of the current
list; an index out of `[-len, len)` is an `IndexError` (`none`). -/
def pyPopIdx (i : Int) (l : List V) : Option (List V) :=
  let eff : Int := if i < 0 then i + (l.length : Int) else i
  if 0 ≤ eff ∧ eff < (l.length : Int) then some (l.eraseIdx eff.toNat) else none

/-- Python's `sorted(l, key=key, reverse=True)`: a stable descending sort.
`sorted` computes every key before any comparison, using the state at sort
time. -/
def pySortedDesc (key : Int → Nat) (l : List Int) : List Int :=
  List.insertionSort (fun a b => key b ≤ key a) l

/-- The pop loop of `PopResult.__call__`: pops each (raw) index in turn from
the shrinking list.  On error the list contents at raise time are kept. -/
def popLoop : List Int → List V → Except (PyErr × List V) (List V)
  | [], l => .ok l
  | i :: rest, l =>
    match pyPopIdx i l with
    | none => .error (.indexError, l)
    | some l1 => popLoop rest l1

/-- `PopResult.__call__`: sorts the constructed indices by
`k % len(partial_result)` descending (the length at sort time), then pops
each raw index in that order.  With a non-empty index list and an empty
result the key function raises `ZeroDivisionError` before any pop. -/
def popResultPy (indices : List Int) (l : List V) : Except (PyErr × List V) (List V) :=
  if indices.isEmpty then .ok l
  else if l.isEmpty then .error (.zeroDivisionError, l)
  else popLoop (pySortedDesc (fun k => pyMod k l.length) indices) l

mutual

/-- `MemberAction.__call__` for each action variant, executed by
`call_next` against the member that returned it and the call state.
Returns the continue flag and the updated state, or the raised error. -/
def execA : MemberAction V M → M → CouncilCallState V M → Except PyErr (Bool × CouncilCallState V M)
  | .cont, _, σ => .ok (true, σ)
  | .brk, _, σ => .ok (false, σ)
  | .postpone wait_for, m, σ =>
    match postponeLoop wait_for { σ with dependency_stack := σ.dependency_stack ++ [m] } with
    | .ok σ1 => .ok (true, σ1)
    | .error e => .error e
  | .enqueue ms, _, σ => .ok (true, { σ with pending_members := σ.pending_members ∪ ms.toFinset })
  | .extend groups, _, σ => .ok (true, { σ with partial_result := σ.partial_result ++ groups.flatten })
  | .append vs, _, σ => .ok (true, { σ with partial_result := σ.partial_result ++ vs })
  | .removeResult vs, _, σ =>
    match removeLoop vs σ.partial_result with
    | .ok l => .ok (true, { σ with partial_result := l })
    | .error e => .error e
  | .popResult idxs, _, σ =>
    match popResultPy idxs σ.partial_result with
    | .ok l => .ok (true, { σ with partial_result := l })
    | .error (e, _) => .error e
  | .clearResult, _, σ => .ok (true, { σ with partial_result := [] })
  | .joined parts, m, σ => execList parts m σ

/-- `Joined.__call__`: the parts execute in order against the same state,
the continue flags are ANDed, and a raised error aborts the iteration. -/
def execList : List (MemberAction V M) → M → CouncilCallState V M → Except PyErr (Bool × CouncilCallState V M)
  | [], _, σ => .ok (true, σ)
  | p :: rest, m, σ =>
    match execA p m σ with
    | .error e => .error e
    | .ok (b1, σ1) =>
      match execList rest m σ1 with
      | .error e => .error e
      | .ok (b2, σ2) => .ok (b1 && b2, σ2)

end

/-- `call_next`'s outcome normalisation: a non-action outcome is wrapped as
`Append(out)`. -/
def normalizeOutcome : Outcome V M → MemberAction V M
  | .value v => .append [v]
  | .action a => a

/-- The member selection of `call_next`: pop the last element of the
dependency stack if it is non-empty, otherwise pop an arbitrary element of
the pending set. -/
inductive Selects : CouncilCallState V M → M → CouncilCallState V M → Prop where
  | stack (σ σ' : CouncilCallState V M) (m : M)
      (h : σ.dependency_stack = σ'.dependency_stack ++ [m])
      (hp : σ'.pending_members = σ.pending_members)
      (hr : σ'.partial_result = σ.partial_result) : Selects σ m σ'
  | pending (σ σ' : CouncilCallState V M) (m : M)
      (hs : σ.dependency_stack = [])
      (hm : m ∈ σ.pending_members)
      (hs' : σ'.dependency_stack = [])
      (hp : σ'.pending_members = σ.pending_members.erase m)
      (hr : σ'.partial_result = σ.partial_result) : Selects σ m σ'

/-- A partial run of the engine loop: a sequence of `call_next` steps, each
selecting a member, invoking it on the popped state, normalising the
outcome and executing it with a `true` continue flag.  The trace records
the invoked members in order. -/
inductive Run (call : M → CouncilCallState V M → Outcome V M) :
    CouncilCallState V M → List M → CouncilCallState V M → Prop where
  | nil (σ : CouncilCallState V M) : Run call σ [] σ
  | step (σ σ1 σ2 σ3 : CouncilCallState V M) (m : M) (tr : List M)
      (hs : Selects σ m σ1)
      (hx : execA (normalizeOutcome (call m σ1)) m σ1 = .ok (true, σ2))
      (h : Run call σ2 tr σ3) : Run call σ (m :: tr) σ3

/-- A complete, non-raising call of `CouncilCallState.__call__`: the loop
runs until no member is available (success) or an action returns a `false`
continue flag, and the result is the `partial_result` at that moment.  The
trace records every invoked member in order. -/
inductive CallResult (call : M → CouncilCallState V M → Outcome V M) :
    CouncilCallState V M → List M → List V → Prop where
  | done (σ : CouncilCallState V M)
      (h1 : σ.dependency_stack = [])
      (h2 : σ.pending_members = ∅) : CallResult call σ [] σ.partial_result
  | stop (σ σ1 σ2 : CouncilCallState V M) (m : M)
      (hs : Selects σ m σ1)
      (hx : execA (normalizeOutcome (call m σ1)) m σ1 = .ok (false, σ2)) :
      CallResult call σ [m] σ2.partial_result
  | step (σ σ1 σ2 : CouncilCallState V M) (m : M) (tr : List M) (r : List V)
      (hs : Selects σ m σ1)
      (hx : execA (normalizeOutcome (call m σ1)) m σ1 = .ok (true, σ2))
      (h : CallResult call σ2 tr r) : CallResult call σ (m :: tr) r

mutual

/-- All members an action adds to the pending set (the `Enqueue` targets,
collected through `Joined` parts). -/
def enqTargets : MemberAction V M → List M
  | .enqueue ms => ms
  | .joined parts => enqTargetsList parts
  | _ => []

/-- `enqTargets` over a list of parts. -/
def enqTargetsList : List (MemberAction V M) → List M
  | [] => []
  | p :: rest => enqTargets p ++ enqTargetsList rest

end

mutual

/-- All members an action waits for (the `Postpone` targets, collected
through `Joined` parts). -/
def waitForsA : MemberAction V M → List M
  | .postpone wf => wf
  | .joined parts => waitForsList parts
  | _ => []

/-- `waitForsA` over a list of parts. -/
def waitForsList : List (MemberAction V M) → List M
  | [] => []
  | p :: rest => waitForsA p ++ waitForsList rest

end

mutual

/-- The number of `Postpone` parts inside an action (each pushes the current
member onto the dependency stack once). -/
def postponeCount : MemberAction V M → Nat
  | .postpone _ => 1
  | .joined parts => postponeCountList parts
  | _ => 0

/-- `postponeCount` over a list of parts. -/
def postponeCountList : List (MemberAction V M) → Nat
  | [] => 0
  | p :: rest => postponeCount p + postponeCountList rest

end

/-- The spec's §3 invariant: a member appears in at most one of the pending
set and the dependency stack, and at most once there. -/
def StateInv (σ : CouncilCallState V M) : Prop :=
  σ.dependency_stack.Nodup ∧ ∀ x ∈ σ.dependency_stack, x ∉ σ.pending_members

instance (σ : CouncilCallState V M) : Decidable (StateInv σ) := by
  unfold StateInv; infer_instance

/-- `removeAtPositions is p l` is `l` (whose head sits at position `p`) with
every element whose position is listed in `is` removed: the reference
meaning of "remove exactly the elements at these positions". -/
def removeAtPositions (is : List Nat) : Nat → List V → List V
  | _, [] => []
  | p, x :: xs =>
    if p ∈ is then removeAtPositions is (p + 1) xs
    else x :: removeAtPositions is (p + 1) xs

/-- A `Joined` object: `Joined.__init__` stores the `parts` iterable as-is.
`iter` records whether that iterable is a single-use iterator (as produced
by `itertools.chain` in `Joined.__add__`) rather than a tuple; `parts` holds
the actions the iterable has not yielded yet. -/
structure PyJoined (V M : Type) where
  iter : Bool
  parts : List (MemberAction V M)

/-- `Joined.__add__` on two `Joined` operands: the combined object stores
`chain(self.parts, other.parts)`, a lazy single-use iterator over the
concatenated parts. -/
def addJoined (j1 j2 : PyJoined V M) : PyJoined V M := ⟨true, j1.parts ++ j2.parts⟩

/-- `Joined.__call__` on a `Joined` object: iterates whatever the stored
iterable yields, ANDing the flags; iterating a single-use iterator
exhausts it. -/
def callJoined (j : PyJoined V M) (m : M) (σ : CouncilCallState V M) :
    Except PyErr (Bool × CouncilCallState V M × PyJoined V M) :=
  match execList j.parts m σ with
  | .ok (b, σ1) => .ok (b, σ1, if j.iter then ⟨true, []⟩ else j)
  | .error e => .error e

end Model

/-- `DictCouncil.CallState.default_action` (dict_council.py): a plain
outcome must be a sized iterable of exactly two elements `[k, v]`
(`TypeError` otherwise), and becomes a `SetMissing(k, v)` action,
represented here by the pair `(k, v)`. -/
def dictDefaultAction {U : Type} (out : List U) : Except PyErr (U × U) :=
  match out with
  | [k, v] => .ok (k, v)
  | _ => .error .typeError

/-- Modelled from the spec: the body of `DictCouncil.SetMissing` is missing
from src (dict_council.py breaks off inside `SetMissing.__init__`, and the
`council.abstract_council` module it builds on is absent).  Per §4.4 the
action sets `key` to `value` only if `key` is not already present
(first-writer-wins); the mapping keeps insertion order like a Python dict,
modelled as an association list. -/
def setMissing {U : Type} [DecidableEq U] (k v : U) (d : List (U × U)) : List (U × U) :=
  if (d.lookup k).isSome then d else d ++ [(k, v)]

/-- Equality of `Except` values is decidable componentwise. -/
instance {E A : Type} [DecidableEq E] [DecidableEq A] : DecidableEq (Except E A)
  | .ok a, .ok b => decidable_of_iff (a = b) (by simp)
  | .ok _, .error _ => isFalse (by simp)
  | .error _, .ok _ => isFalse (by simp)
  | .error a, .error b => decidable_of_iff (a = b) (by simp)

/-- Concrete members refuting the unconditional Postpone ordering law.
Member 0 postpones on members 1 and 2 at its first invocation; member 2,
the first dependency popped, enqueues member 0 and postpones on it, which
puts member 0 above member 1 on the dependency stack. -/
def callC2 : Nat → CouncilCallState Nat Nat → Outcome Nat Nat := fun m σ =>
  if m = 0 then
    (if 1 ∈ σ.pending_members then .action (.postpone [1, 2]) else .value 10)
  else if m = 2 then
    (if σ.partial_result.isEmpty then .action (.joined [.enqueue [0], .postpone [0]])
     else .action .cont)
  else .value 20

/-- Concrete well-behaved members for the amended Postpone ordering law:
member 0 postpones on members 1 and 2 once, every other outcome is a plain
value; nothing is ever enqueued. -/
def callC2W : Nat → CouncilCallState Nat Nat → Outcome Nat Nat := fun m σ =>
  if m = 0 then
    (if 1 ∈ σ.pending_members then .action (.postpone [1, 2]) else .value 10)
  else .value m

/-- A member that returns `Break` (for the Break short-circuit witness). -/
def callBrkW : Nat → CouncilCallState Nat Nat → Outcome Nat Nat := fun _ _ => .action .brk

section Lemmas

variable {V M : Type} [DecidableEq M] [DecidableEq V]

/-- `postponeLoop` only ever appends members taken from the pending set to
the dependency stack, shrinks the pending set, and keeps the result. -/
theorem postponeLoop_frame (wf : List M) :
    ∀ (σ σ' : CouncilCallState V M), postponeLoop wf σ = .ok σ' →
    (∃ q, σ'.dependency_stack = σ.dependency_stack ++ q ∧
      ∀ x ∈ q, x ∈ σ.pending_members) ∧
    (∀ x ∈ σ'.pending_members, x ∈ σ.pending_members) ∧
    σ'.partial_result = σ.partial_result := by
  induction wf with
  | nil =>
    intro σ σ' h
    simp only [postponeLoop] at h
    cases h
    exact ⟨⟨[], by simp, by simp⟩, fun x hx => hx, rfl⟩
  | cons w rest ih =>
    intro σ σ' h
    simp only [postponeLoop] at h
    split at h
    case isTrue hw =>
      obtain ⟨⟨q, hq, hqmem⟩, hpend, hres⟩ := ih _ _ h
      refine ⟨⟨w :: q, ?_, ?_⟩, ?_, hres⟩
      · simpa using hq
      · intro x hx
        rcases List.mem_cons.mp hx with rfl | hx
        · exact hw
        · exact Finset.mem_of_mem_erase (hqmem x hx)
      · intro x hx
        exact Finset.mem_of_mem_erase (hpend x hx)
    case isFalse => cases h

mutual

/-- Executing an action only appends to the dependency stack, and each
pushed member is the current member, a previously pending member, or an
enqueue target; pending members come from the old set or enqueue targets;
no action touches the stack or pending set in any other way. -/
theorem execA_frame (a : MemberAction V M) :
    ∀ (m : M) (σ : CouncilCallState V M) (b : Bool) (σ' : CouncilCallState V M),
    execA a m σ = .ok (b, σ') →
    (∃ q, σ'.dependency_stack = σ.dependency_stack ++ q ∧
      ∀ x ∈ q, x = m ∨ x ∈ σ.pending_members ∨ x ∈ enqTargets a) ∧
    (∀ x ∈ σ'.pending_members, x ∈ σ.pending_members ∨ x ∈ enqTargets a) := by
  intro m σ b σ' h
  cases a with
  | cont =>
    cases h
    exact ⟨⟨[], by simp, by simp⟩, fun x hx => .inl hx⟩
  | brk =>
    cases h
    exact ⟨⟨[], by simp, by simp⟩, fun x hx => .inl hx⟩
  | postpone wf =>
    simp only [execA] at h
    split at h
    case h_1 σ1 heq =>
      cases h
      obtain ⟨⟨q, hq, hqmem⟩, hpend, _⟩ := postponeLoop_frame wf _ _ heq
      refine ⟨⟨m :: q, by simpa using hq, ?_⟩, fun x hx => .inl (hpend x hx)⟩
      intro x hx
      rcases List.mem_cons.mp hx with rfl | hx
      · exact .inl rfl
      · exact .inr (.inl (hqmem x hx))
    case h_2 => cases h
  | enqueue ms =>
    cases h
    refine ⟨⟨[], by simp, by simp⟩, fun x hx => ?_⟩
    rcases Finset.mem_union.mp hx with hx | hx
    · exact .inl hx
    · exact .inr (by simpa [enqTargets] using hx)
  | extend gs =>
    cases h
    exact ⟨⟨[], by simp, by simp⟩, fun x hx => .inl hx⟩
  | append vs =>
    cases h
    exact ⟨⟨[], by simp, by simp⟩, fun x hx => .inl hx⟩
  | removeResult vs =>
    simp only [execA] at h
    split at h
    case h_1 => cases h; exact ⟨⟨[], by simp, by simp⟩, fun x hx => .inl hx⟩
    case h_2 => cases h
  | popResult idxs =>
    simp only [execA] at h
    split at h
    case h_1 => cases h; exact ⟨⟨[], by simp, by simp⟩, fun x hx => .inl hx⟩
    case h_2 => cases h
  | clearResult =>
    cases h
    exact ⟨⟨[], by simp, by simp⟩, fun x hx => .inl hx⟩
  | joined parts =>
    simp only [execA] at h
    have := execList_frame parts m σ b σ' h
    simpa [enqTargets] using this

/-- The part-list version of `execA_frame`. -/
theorem execList_frame (parts : List (MemberAction V M)) :
    ∀ (m : M) (σ : CouncilCallState V M) (b : Bool) (σ' : CouncilCallState V M),
    execList parts m σ = .ok (b, σ') →
    (∃ q, σ'.dependency_stack = σ.dependency_stack ++ q ∧
      ∀ x ∈ q, x = m ∨ x ∈ σ.pending_members ∨ x ∈ enqTargetsList parts) ∧
    (∀ x ∈ σ'.pending_members, x ∈ σ.pending_members ∨ x ∈ enqTargetsList parts) := by
  intro m σ b σ' h
  cases parts with
  | nil =>
    simp only [execList] at h
    cases h
    exact ⟨⟨[], by simp, by simp⟩, fun x hx => .inl hx⟩
  | cons p rest =>
    simp only [execList] at h
    cases heq1 : execA p m σ with
    | error e => rw [heq1] at h; cases h
    | ok v1 =>
      obtain ⟨b1, σ1⟩ := v1
      rw [heq1] at h
      dsimp only at h
      cases heq2 : execList rest m σ1 with
      | error e => rw [heq2] at h; cases h
      | ok v2 =>
        obtain ⟨b2, σ2⟩ := v2
        rw [heq2] at h
        dsimp only at h
        cases h
        obtain ⟨⟨q1, hq1, hq1m⟩, hp1⟩ := execA_frame p m σ b1 σ1 heq1
        obtain ⟨⟨q2, hq2, hq2m⟩, hp2⟩ := execList_frame rest m σ1 _ _ heq2
        constructor
        · refine ⟨q1 ++ q2, by simp [hq2, hq1], ?_⟩
          intro x hx
          rcases List.mem_append.mp hx with hx | hx
          · rcases hq1m x hx with h | h | h
            · exact .inl h
            · exact .inr (.inl h)
            · exact .inr (.inr (by simp [enqTargetsList, h]))
          · rcases hq2m x hx with h | h | h
            · exact .inl h
            · rcases hp1 x h with h | h
              · exact .inr (.inl h)
              · exact .inr (.inr (by simp [enqTargetsList, h]))
            · exact .inr (.inr (by simp [enqTargetsList, h]))
        · intro x hx
          rcases hp2 x hx with h | h
          · rcases hp1 x h with h | h
            · exact .inl h
            · exact .inr (by simp [enqTargetsList, h])
          · exact .inr (by simp [enqTargetsList, h])

end

end Lemmas

section ClaimsA

variable {V M : Type} [DecidableEq M] [DecidableEq V]

/-- A run followed by a completed call is a completed call with the
concatenated trace. -/
theorem run_callResult_append (call : M → CouncilCallState V M → Outcome V M)
    (σ0 σ : CouncilCallState V M) (tr : List M)
    (h : Run call σ0 tr σ) :
    ∀ (tr2 : List M) (r : List V), CallResult call σ tr2 r →
      CallResult call σ0 (tr ++ tr2) r := by
  induction h with
  | nil σa => intro tr2 r h2; simpa using h2
  | step σa σb σc σd mm tr' hs hx _ ih =>
    intro tr2 r h2
    exact CallResult.step σa σb σc mm _ r hs hx (ih tr2 r h2)

/-- C1: `call_next` selects the next member by popping the last element of
the dependency stack when it is non-empty; otherwise it pops an arbitrary
element of the pending set; and when both are empty the call terminates
successfully with the accumulated `partial_result` and no further
invocation. -/
theorem C1_selection :
    (∀ (σ : CouncilCallState V M) (m : M) (σ' : CouncilCallState V M),
      σ.dependency_stack ≠ [] →
      (Selects σ m σ' ↔ σ.dependency_stack = σ'.dependency_stack ++ [m] ∧
        σ'.pending_members = σ.pending_members ∧
        σ'.partial_result = σ.partial_result)) ∧
    (∀ (σ : CouncilCallState V M) (m : M) (σ' : CouncilCallState V M),
      σ.dependency_stack = [] →
      (Selects σ m σ' ↔ m ∈ σ.pending_members ∧ σ'.dependency_stack = [] ∧
        σ'.pending_members = σ.pending_members.erase m ∧
        σ'.partial_result = σ.partial_result)) ∧
    (∀ (call : M → CouncilCallState V M → Outcome V M)
       (σ : CouncilCallState V M) (tr : List M) (r : List V),
      σ.dependency_stack = [] → σ.pending_members = ∅ →
      (CallResult call σ tr r ↔ tr = [] ∧ r = σ.partial_result)) := by
  refine ⟨?_, ?_, ?_⟩
  · intro σ m σ' hne
    constructor
    · intro hsel
      cases hsel with
      | stack _ _ h hp hr => exact ⟨h, hp, hr⟩
      | pending _ _ hs hm hs' hp hr => exact absurd hs hne
    · rintro ⟨h, hp, hr⟩
      exact Selects.stack σ σ' m h hp hr
  · intro σ m σ' hnil
    constructor
    · intro hsel
      cases hsel with
      | stack _ _ h hp hr => rw [hnil] at h; simp at h
      | pending _ _ hs hm hs' hp hr => exact ⟨hm, hs', hp, hr⟩
    · rintro ⟨hm, hs', hp, hr⟩
      exact Selects.pending σ σ' m hnil hm hs' hp hr
  · intro call σ tr r hnil hemp
    constructor
    · intro hcr
      cases hcr with
      | done _ h1 h2 => exact ⟨rfl, rfl⟩
      | stop _ σ1 σ2 mb hs hx =>
        cases hs with
        | stack _ _ h hp hr => rw [hnil] at h; simp at h
        | pending _ _ hs2 hm hs' hp hr => rw [hemp] at hm; simp at hm
      | step _ σ1 σ2 mb tr2 r2 hs hx hrest =>
        cases hs with
        | stack _ _ h2 hp hr => rw [hnil] at h2; simp at h2
        | pending _ _ hs2 hm hs' hp hr => rw [hemp] at hm; simp at hm
    · rintro ⟨rfl, rfl⟩
      exact CallResult.done σ hnil hemp

/-- C1 witness: a stack pop, a pending pop, and an empty-state termination
on concrete states. -/
theorem C1_selection_witness :
    Selects (V := Nat) (M := Nat) ⟨[1, 2], {5}, [9]⟩ 2 ⟨[1], {5}, [9]⟩ ∧
    Selects (V := Nat) (M := Nat) ⟨[], {3, 4}, []⟩ 3 ⟨[], {4}, []⟩ ∧
    CallResult (fun (_ : Nat) (_ : CouncilCallState Nat Nat) => Outcome.value 0)
      ⟨[], ∅, [7]⟩ [] [7] := by
  refine ⟨?_, ?_, ?_⟩
  · exact (C1_selection.1 ⟨[1, 2], {5}, [9]⟩ 2 ⟨[1], {5}, [9]⟩ (by decide)).mpr
      (by refine ⟨rfl, rfl, rfl⟩)
  · exact (C1_selection.2.1 ⟨[], {3, 4}, []⟩ 3 ⟨[], {4}, []⟩ rfl).mpr
      (by refine ⟨by decide, rfl, by decide, rfl⟩)
  · exact (C1_selection.2.2 _ ⟨[], ∅, [7]⟩ [] [7] rfl rfl).mpr ⟨rfl, rfl⟩

/-- C5: a `Joined` action executes each part in order against the same
threaded call state, ANDs the boolean results, and does not short-circuit:
parts after one that returned `false` still execute and their mutations are
kept. -/
theorem C5_joined_no_short_circuit :
    (∀ (parts : List (MemberAction V M)) (m : M) (σ : CouncilCallState V M),
      execA (.joined parts) m σ = execList parts m σ) ∧
    (∀ (p : MemberAction V M) (rest : List (MemberAction V M)) (m : M)
       (σ : CouncilCallState V M) (b1 : Bool) (σ1 : CouncilCallState V M),
      execA p m σ = .ok (b1, σ1) →
      execList (p :: rest) m σ =
        (match execList rest m σ1 with
         | .ok (b2, σ2) => .ok (b1 && b2, σ2)
         | .error e => .error e)) ∧
    (∀ (p1 p2 : MemberAction V M) (m : M) (σ σ1 σ2 : CouncilCallState V M) (b2 : Bool),
      execA p1 m σ = .ok (false, σ1) → execA p2 m σ1 = .ok (b2, σ2) →
      execA (.joined [p1, p2]) m σ = .ok (false, σ2)) := by
  refine ⟨?_, ?_, ?_⟩
  · intro parts m σ
    simp [execA]
  · intro p rest m σ b1 σ1 h
    simp only [execList, h]
    cases execList rest m σ1 with
    | error e => rfl
    | ok v => rfl
  · intro p1 p2 m σ σ1 σ2 b2 h1 h2
    simp [execA, execList, h1, h2]

/-- C5 witness: a part that appends still runs after a `Break` part
returned false, and the flags AND to false. -/
theorem C5_joined_witness :
    execA (V := Nat) (M := Nat) (.joined [.brk, .append [4]]) 0 ⟨[], ∅, []⟩ =
      .ok (false, ⟨[], ∅, [4]⟩) :=
  C5_joined_no_short_circuit.2.2 .brk (.append [4]) 0 ⟨[], ∅, []⟩ ⟨[], ∅, []⟩
    ⟨[], ∅, [4]⟩ true rfl rfl

/-- C6: `Break` returns false leaving the state unchanged, and a call in
which a member returns `Break` invokes no member after it and returns
exactly the `partial_result` accumulated at that moment. -/
theorem C6_break :
    (∀ (m : M) (σ : CouncilCallState V M),
      execA (V := V) (M := M) .brk m σ = .ok (false, σ)) ∧
    (∀ (call : M → CouncilCallState V M → Outcome V M)
       (σ0 : CouncilCallState V M) (tr : List M) (σ : CouncilCallState V M)
       (m : M) (σ1 : CouncilCallState V M),
      Run call σ0 tr σ → Selects σ m σ1 → normalizeOutcome (call m σ1) = .brk →
      CallResult call σ0 (tr ++ [m]) σ1.partial_result) := by
  constructor
  · intro m σ; rfl
  · intro call σ0 tr σ m σ1 hrun hsel hout
    refine run_callResult_append call σ0 σ tr hrun [m] σ1.partial_result ?_
    refine CallResult.stop σ σ1 σ1 m hsel ?_
    rw [hout]; rfl

/-- C6 witness: a single-member call that breaks immediately, returning the
initial accumulated result. -/
theorem C6_break_witness :
    execA (V := Nat) (M := Nat) .brk 0 ⟨[], ∅, [3]⟩ = .ok (false, ⟨[], ∅, [3]⟩) ∧
    CallResult callBrkW ⟨[], {0}, [3]⟩ [0] [3] := by
  constructor
  · exact C6_break.1 0 ⟨[], ∅, [3]⟩
  · exact C6_break.2 callBrkW ⟨[], {0}, [3]⟩ [] ⟨[], {0}, [3]⟩ 0 ⟨[], ∅, [3]⟩
      (Run.nil _) (Selects.pending _ _ 0 rfl (by decide) rfl (by decide) rfl) rfl

end ClaimsA

section ClaimsB

variable {V M : Type} [DecidableEq M] [DecidableEq V]

/-- Sequencing lemma for part lists: executing a concatenation executes the
first list, then the second on the resulting state, ANDing the flags. -/
theorem execList_append (l1 : List (MemberAction V M)) :
    ∀ (l2 : List (MemberAction V M)) (m : M) (σ σ1 : CouncilCallState V M) (b1 : Bool),
    execList l1 m σ = .ok (b1, σ1) →
    ∀ (b2 : Bool) (σ2 : CouncilCallState V M), execList l2 m σ1 = .ok (b2, σ2) →
    execList (l1 ++ l2) m σ = .ok (b1 && b2, σ2) := by
  induction l1 with
  | nil =>
    intro l2 m σ σ1 b1 h1 b2 σ2 h2
    simp only [execList] at h1
    cases h1
    simpa using h2
  | cons p rest ih =>
    intro l2 m σ σ1 b1 h1 b2 σ2 h2
    simp only [execList] at h1 ⊢
    cases heqp : execA p m σ with
    | error e => rw [heqp] at h1; cases h1
    | ok vp =>
      obtain ⟨bp, σp⟩ := vp
      rw [heqp] at h1
      dsimp only at h1
      cases heqr : execList rest m σp with
      | error e => rw [heqr] at h1; cases h1
      | ok vr =>
        obtain ⟨br, σr⟩ := vr
        rw [heqr] at h1
        dsimp only at h1
        cases h1
        have h3 := ih l2 m σp _ br heqr b2 σ2 h2
        dsimp only
        rw [List.append_eq, h3]
        dsimp only
        simp [Bool.and_assoc]

/-- C9: combining two `Joined` actions stores a single-use `chain` iterator
of their parts: the first execution runs all parts of `j1` then all parts
of `j2` (the flags of the two groups ANDed), and hands back an exhausted
iterator; executing the combined object again runs no part at all, changes
nothing, and returns true. -/
theorem C9_joined_add_single_use (j1 j2 : PyJoined V M)
    (h1 : j1.parts ≠ []) (h2 : j2.parts ≠ []) :
    (∀ (m : M) (σ σa σb : CouncilCallState V M) (b1 b2 : Bool),
      execList j1.parts m σ = .ok (b1, σa) → execList j2.parts m σa = .ok (b2, σb) →
      callJoined (addJoined j1 j2) m σ = .ok (b1 && b2, σb, ⟨true, []⟩)) ∧
    (∀ (m2 : M) (σ2 : CouncilCallState V M),
      callJoined (⟨true, []⟩ : PyJoined V M) m2 σ2 = .ok (true, σ2, ⟨true, []⟩)) := by
  constructor
  · intro m σ σa σb b1 b2 hx1 hx2
    have := execList_append j1.parts j2.parts m σ σa b1 hx1 b2 σb hx2
    simp [callJoined, addJoined, this]
  · intro m2 σ2
    rfl

/-- C9 witness: two concrete one-part `Joined` objects; the combined object
appends both values on first execution and is inert on the second. -/
theorem C9_joined_add_witness :
    callJoined (V := Nat) (M := Nat)
      (addJoined ⟨false, [.append [1]]⟩ ⟨false, [.append [2]]⟩) 0 ⟨[], ∅, []⟩ =
      .ok (true, ⟨[], ∅, [1, 2]⟩, ⟨true, []⟩) ∧
    callJoined (V := Nat) (M := Nat) ⟨true, []⟩ 0 ⟨[], ∅, [1, 2]⟩ =
      .ok (true, ⟨[], ∅, [1, 2]⟩, ⟨true, []⟩) := by
  have h := C9_joined_add_single_use (V := Nat) (M := Nat)
    ⟨false, [.append [1]]⟩ ⟨false, [.append [2]]⟩ (by simp) (by simp)
  exact ⟨h.1 0 ⟨[], ∅, []⟩ ⟨[], ∅, [1]⟩ ⟨[], ∅, [1, 2]⟩ true true rfl rfl,
    h.2 0 ⟨[], ∅, [1, 2]⟩⟩

/-- C10: a `PopResult` built with at least one index, executed while the
result is empty, raises `ZeroDivisionError` (from `k % len(partial_result)`
in the sort key) rather than `IndexError`, before any element is popped, so
the result list at raise time is still empty. -/
theorem C10_pop_result_empty (idxs : List Int) (h : idxs ≠ []) :
    popResultPy idxs ([] : List V) = .error (.zeroDivisionError, []) ∧
    (∀ (m : M) (stk : List M) (pnd : Finset M),
      execA (.popResult idxs) m ⟨stk, pnd, ([] : List V)⟩ = .error .zeroDivisionError) := by
  have hp : popResultPy idxs ([] : List V) = .error (.zeroDivisionError, []) := by
    simp [popResultPy, List.isEmpty_iff, h]
  refine ⟨hp, ?_⟩
  intro m stk pnd
  simp only [execA, hp]

/-- C10 witness: `PopResult(0)` on an empty result. -/
theorem C10_pop_result_empty_witness :
    popResultPy [(0 : Int)] ([] : List Nat) = .error (.zeroDivisionError, []) ∧
    execA (V := Nat) (M := Nat) (.popResult [(0 : Int)]) 7 ⟨[], ∅, []⟩ =
      .error .zeroDivisionError :=
  ⟨(C10_pop_result_empty (V := Nat) (M := Nat) [(0 : Int)] (by decide)).1,
    (C10_pop_result_empty (V := Nat) (M := Nat) [(0 : Int)] (by decide)).2 7 [] ∅⟩

end ClaimsB

section ClaimsC

variable {V M : Type} [DecidableEq M] [DecidableEq V]

/-- When every `wait_for` member is pending and none repeats, the postpone
loop moves them all from the pending set to the stack, in order. -/
theorem postponeLoop_ok (wf : List M) :
    ∀ (σ : CouncilCallState V M), wf.Nodup → (∀ x ∈ wf, x ∈ σ.pending_members) →
    postponeLoop wf σ =
      .ok ⟨σ.dependency_stack ++ wf, σ.pending_members \ wf.toFinset, σ.partial_result⟩ := by
  induction wf with
  | nil =>
    intro σ hnd hmem
    cases σ
    simp [postponeLoop]
  | cons w rest ih =>
    intro σ hnd hmem
    simp only [postponeLoop, if_pos (hmem w (List.mem_cons_self w rest))]
    rw [ih _ (List.nodup_cons.mp hnd).2 ?_]
    · congr 1
      congr 1
      · simp
      · ext x
        simp only [Finset.mem_sdiff, Finset.mem_erase, List.toFinset_cons,
          Finset.mem_insert, List.mem_toFinset]
        tauto
    · intro x hx
      refine Finset.mem_erase.mpr ⟨?_, hmem x (List.mem_cons_of_mem w hx)⟩
      intro hxw
      exact (List.nodup_cons.mp hnd).1 (hxw ▸ hx)

/-- When some `wait_for` member is not pending at its removal time (absent
or repeated), the postpone loop raises `KeyError`. -/
theorem postponeLoop_err (wf : List M) :
    ∀ (σ : CouncilCallState V M),
    ¬ (wf.Nodup ∧ ∀ x ∈ wf, x ∈ σ.pending_members) →
    postponeLoop wf σ = .error .keyError := by
  induction wf with
  | nil => intro σ h; simp at h
  | cons w rest ih =>
    intro σ h
    simp only [postponeLoop]
    by_cases hw : w ∈ σ.pending_members
    · rw [if_pos hw]
      refine ih _ ?_
      rintro ⟨hnd, hmem⟩
      refine h ⟨List.nodup_cons.mpr ⟨?_, hnd⟩, ?_⟩
      · intro hwr
        exact (Finset.mem_erase.mp (hmem w hwr)).1 rfl
      · intro x hx
        rcases List.mem_cons.mp hx with rfl | hx
        · exact hw
        · exact Finset.mem_of_mem_erase (hmem x hx)
    · rw [if_neg hw]

/-- C7 (amended): an empty `wait_for` is rejected at construction; executing
`Postpone` raises `KeyError` exactly when some dependency is not in the
pending set at its own (sequential) removal time — that is, when a
dependency is absent or listed twice; otherwise it pushes the current
member and then each dependency onto the stack, removes the dependencies
from the pending set, and returns true. -/
theorem C7_postpone (wf : List M) (m : M) (σ : CouncilCallState V M) :
    (mkPostpone (V := V) (M := M) [] = .error .valueError) ∧
    (wf ≠ [] → mkPostpone (V := V) (M := M) wf = .ok (.postpone wf)) ∧
    (execA (.postpone wf) m σ = .error .keyError ↔
      ¬ (wf.Nodup ∧ ∀ x ∈ wf, x ∈ σ.pending_members)) ∧
    (wf.Nodup → (∀ x ∈ wf, x ∈ σ.pending_members) →
      execA (.postpone wf) m σ =
        .ok (true, ⟨σ.dependency_stack ++ m :: wf,
          σ.pending_members \ wf.toFinset, σ.partial_result⟩)) := by
  have hok : wf.Nodup → (∀ x ∈ wf, x ∈ σ.pending_members) →
      execA (.postpone wf) m σ =
        .ok (true, ⟨σ.dependency_stack ++ m :: wf,
          σ.pending_members \ wf.toFinset, σ.partial_result⟩) := by
    intro hnd hmem
    simp only [execA]
    rw [postponeLoop_ok wf
      ⟨σ.dependency_stack ++ [m], σ.pending_members, σ.partial_result⟩ hnd hmem]
    simp
  refine ⟨rfl, ?_, ⟨?_, ?_⟩, hok⟩
  · intro hne
    simp [mkPostpone, List.isEmpty_iff, hne]
  · intro herr hcond
    rw [hok hcond.1 hcond.2] at herr
    cases herr
  · intro hcond
    simp only [execA]
    rw [postponeLoop_err wf _ (by simpa using hcond)]

/-- C7 counterexample: `Postpone(5, 5)` with member 5 pending — every
requested dependency is in the pending set, yet execution raises the
"dependency not pending" `KeyError`, because the first removal takes 5 out
of the set before the second removal looks for it. -/
theorem C7_postpone_counterexample :
    (∀ x ∈ ([5, 5] : List Nat), x ∈ ({5} : Finset Nat)) ∧
    execA (V := Nat) (M := Nat) (.postpone [5, 5]) 9 ⟨[], {5}, []⟩ = .error .keyError := by
  exact ⟨by decide, rfl⟩

/-- C7 witness: a successful distinct postpone and a non-empty
construction. -/
theorem C7_postpone_witness :
    mkPostpone (V := Nat) (M := Nat) [4] = .ok (.postpone [4]) ∧
    execA (V := Nat) (M := Nat) (.postpone [1, 2]) 0 ⟨[9], {1, 2, 3}, [7]⟩ =
      .ok (true, ⟨[9, 0, 1, 2], {3}, [7]⟩) := by
  constructor
  · exact (C7_postpone (V := Nat) (M := Nat) [4] 0 ⟨[], ∅, []⟩).2.1 (by decide)
  · have h := (C7_postpone (V := Nat) (M := Nat) [1, 2] 0 ⟨[9], {1, 2, 3}, [7]⟩).2.2.2
      (by decide) (by decide)
    rw [h]
    decide

/-- C8: in the map-accumulation variant, a plain two-element outcome
`(key, value)` becomes a `SetMissing` that writes only if the key is absent
(first-writer-wins; a later write to a present key leaves the mapping
unchanged), and a plain outcome that is not a two-element iterable raises
the `TypeError` contract violation. -/
theorem C8_map_first_writer_wins {U : Type} [DecidableEq U] :
    (∀ (k v : U) (d : List (U × U)),
      dictDefaultAction [k, v] = .ok (k, v) ∧
      (d.lookup k = none → setMissing k v d = d ++ [(k, v)]) ∧
      (∀ w, d.lookup k = some w → setMissing k v d = d)) ∧
    (∀ out : List U, out.length ≠ 2 → dictDefaultAction out = .error .typeError) := by
  constructor
  · intro k v d
    refine ⟨rfl, ?_, ?_⟩
    · intro h; simp [setMissing, h]
    · intro w h; simp [setMissing, h]
  · intro out h
    rcases out with _ | ⟨a, rest1⟩
    · rfl
    rcases rest1 with _ | ⟨b, rest2⟩
    · rfl
    rcases rest2 with _ | ⟨c, rest3⟩
    · simp at h
    · rfl

/-- C8 witness: key 1 gets value 2 when absent; a second proposal for key 1
is ignored; a three-element outcome is rejected. -/
theorem C8_map_witness :
    dictDefaultAction ([1, 2] : List Nat) = .ok (1, 2) ∧
    setMissing 1 2 ([] : List (Nat × Nat)) = [(1, 2)] ∧
    setMissing 1 2 [(1, 9)] = [(1, 9)] ∧
    dictDefaultAction ([1, 2, 3] : List Nat) = .error .typeError := by
  have h := C8_map_first_writer_wins (U := Nat)
  refine ⟨(h.1 1 2 []).1, ?_, ?_, h.2 [1, 2, 3] (by decide)⟩
  · simpa using (h.1 1 2 []).2.1 rfl
  · exact (h.1 1 2 [(1, 9)]).2.2 9 rfl

end ClaimsC

section ClaimsD

variable {V M : Type} [DecidableEq M] [DecidableEq V]

/-- Positions strictly below the current one are never removed. -/
theorem removeAtPositions_all_lt (is : List Nat) :
    ∀ (l : List V) (p : Nat), (∀ j ∈ is, j < p) → removeAtPositions is p l = l := by
  intro l
  induction l with
  | nil => intro p h; rfl
  | cons x xs ih =>
    intro p h
    have hp : p ∉ is := fun hmem => lt_irrefl p (h p hmem)
    simp only [removeAtPositions, if_neg hp]
    rw [ih (p + 1) (fun j hj => Nat.lt_succ_of_lt (h j hj))]

/-- Removal by positions only depends on the set of positions. -/
theorem removeAtPositions_congr (js is : List Nat) (hmem : ∀ x, x ∈ js ↔ x ∈ is) :
    ∀ (l : List V) (p : Nat), removeAtPositions js p l = removeAtPositions is p l := by
  intro l
  induction l with
  | nil => intro p; rfl
  | cons x xs ih =>
    intro p
    simp only [removeAtPositions]
    by_cases hp : p ∈ js
    · rw [if_pos hp, if_pos ((hmem p).mp hp), ih]
    · rw [if_neg hp, if_neg (fun hc => hp ((hmem p).mpr hc)), ih]

/-- Erasing the largest position first, then removing the smaller ones,
removes exactly the whole set of positions. -/
theorem removeAtPositions_erase (rest : List Nat) (a : Nat) :
    ∀ (l : List V) (p : Nat), p ≤ a → a - p < l.length → (∀ j ∈ rest, j < a) →
    removeAtPositions rest p (l.eraseIdx (a - p)) = removeAtPositions (a :: rest) p l := by
  intro l
  induction l with
  | nil => intro p h1 h2 h3; simp at h2
  | cons x xs ih =>
    intro p hpa hlen hrest
    by_cases hpeq : p = a
    · subst hpeq
      rw [Nat.sub_self, List.eraseIdx_cons_zero]
      rw [removeAtPositions_all_lt rest xs p hrest]
      simp only [removeAtPositions, if_pos (List.mem_cons_self p rest)]
      rw [removeAtPositions_all_lt (p :: rest) xs (p + 1) ?_]
      intro j hj
      rcases List.mem_cons.mp hj with rfl | hj
      · omega
      · exact Nat.lt_succ_of_lt (hrest j hj)
    · have hplt : p < a := lt_of_le_of_ne hpa hpeq
      have hsub : a - p = (a - (p + 1)) + 1 := by omega
      rw [hsub, List.eraseIdx_cons_succ]
      have hnext := ih (p + 1) (by omega) (by simp at hlen; omega) hrest
      simp only [removeAtPositions]
      by_cases hp : p ∈ rest
      · rw [if_pos hp, if_pos (List.mem_cons_of_mem a hp), hnext]
      · have hp2 : p ∉ a :: rest := by
          intro hc
          rcases List.mem_cons.mp hc with rfl | hc
          · exact hpeq rfl
          · exact hp hc
        rw [if_neg hp, if_neg hp2, hnext]

/-- `list.pop(i)` at an in-range non-negative index erases that position. -/
theorem pyPopIdx_natCast (a : Nat) (l : List V) (h : a < l.length) :
    pyPopIdx ((a : Int)) l = some (l.eraseIdx a) := by
  have h1 : ¬ ((a : Int) < 0) := by omega
  have h2 : (0 : Int) ≤ (a : Int) ∧ (a : Int) < (l.length : Int) := by omega
  simp [pyPopIdx, h1, h2]

/-- `list.pop(-1)` erases the last position. -/
theorem pyPopIdx_neg_one (l : List V) (h : l ≠ []) :
    pyPopIdx (-1 : Int) l = some (l.eraseIdx (l.length - 1)) := by
  have hlen : 0 < l.length := List.length_pos.mpr h
  have h1 : ((-1 : Int) < 0) := by omega
  have h2 : (0 : Int) ≤ -1 + (l.length : Int) ∧ -1 + (l.length : Int) < (l.length : Int) := by
    omega
  have h3 : ((-1 : Int) + (l.length : Int)).toNat = l.length - 1 := by omega
  simp [pyPopIdx, h1, h2, h3]

/-- Popping a strictly descending list of in-range non-negative indices
removes exactly the elements at those positions. -/
theorem popLoop_desc (js : List Nat) :
    ∀ (l : List V), js.Pairwise (· > ·) → (∀ j ∈ js, j < l.length) →
    popLoop (js.map (fun (j : Nat) => (j : Int))) l = .ok (removeAtPositions js 0 l) := by
  induction js with
  | nil =>
    intro l hpw hlt
    simp only [List.map_nil, popLoop]
    rw [removeAtPositions_all_lt [] l 0 (by simp)]
  | cons a rest ih =>
    intro l hpw hlt
    have ha : a < l.length := hlt a (List.mem_cons_self a rest)
    have hagt : ∀ j ∈ rest, j < a := fun j hj => (List.pairwise_cons.mp hpw).1 j hj
    simp only [List.map_cons, popLoop, pyPopIdx_natCast a l ha]
    rw [ih (l.eraseIdx a) (List.pairwise_cons.mp hpw).2 ?_]
    · have := removeAtPositions_erase rest a l 0 (Nat.zero_le a) (by simpa using ha) hagt
      rw [Nat.sub_zero] at this
      rw [this]
    · intro j hj
      rw [List.length_eraseIdx, if_pos ha]
      have := hagt j hj
      omega

end ClaimsD

section ClaimsE

variable {V M : Type} [DecidableEq M] [DecidableEq V]

/-- Python's `%` on a non-negative value below the modulus is the identity. -/
theorem pyMod_natCast (j n : Nat) (h : j < n) : pyMod ((j : Nat) : Int) n = j := by
  unfold pyMod
  show (((j : Int) % (n : Int)).toNat = j)
  rw [Int.emod_eq_of_lt (by omega) (by omega)]
  simp

/-- A list of non-negative integers is a list of naturals, cast. -/
theorem exists_natCast_rep (l : List Int) :
    (∀ x ∈ l, 0 ≤ x) → ∃ js : List Nat, l = js.map (fun (j : Nat) => (j : Int)) := by
  induction l with
  | nil => intro h; exact ⟨[], rfl⟩
  | cons x xs ih =>
    intro h
    obtain ⟨js, hjs⟩ := ih (fun y hy => h y (List.mem_cons_of_mem x hy))
    refine ⟨x.toNat :: js, ?_⟩
    rw [List.map_cons, Int.toNat_of_nonneg (h x (List.mem_cons_self x xs)), ← hjs]

/-- The sorted index list of `PopResult`, on distinct in-range non-negative
indices, is a strictly descending rearrangement of them. -/
theorem pySortedDesc_natRep (is : List Nat) (N : Nat)
    (hnd : is.Nodup) (hlt : ∀ i ∈ is, i < N) :
    ∃ js : List Nat,
      pySortedDesc (fun k => pyMod k N) (is.map (fun (j : Nat) => (j : Int))) =
        js.map (fun (j : Nat) => (j : Int)) ∧
      js.Pairwise (· > ·) ∧ (∀ x, x ∈ js ↔ x ∈ is) ∧ (∀ j ∈ js, j < N) := by
  have hperm : List.Perm
      (pySortedDesc (fun k => pyMod k N) (is.map (fun (j : Nat) => (j : Int))))
      (is.map (fun (j : Nat) => (j : Int))) :=
    List.perm_insertionSort _ _
  have hsorted : (pySortedDesc (fun k => pyMod k N)
      (is.map (fun (j : Nat) => (j : Int)))).Pairwise
        (fun a b => pyMod b N ≤ pyMod a N) := by
    haveI : IsTotal Int (fun a b => pyMod b N ≤ pyMod a N) :=
      ⟨fun a b => Nat.le_total (pyMod b N) (pyMod a N)⟩
    haveI : IsTrans Int (fun a b => pyMod b N ≤ pyMod a N) :=
      ⟨fun a b c hab hbc => le_trans hbc hab⟩
    exact List.sorted_insertionSort _ _
  have hnonneg : ∀ x ∈ pySortedDesc (fun k => pyMod k N)
      (is.map (fun (j : Nat) => (j : Int))), 0 ≤ x := by
    intro x hx
    have := hperm.mem_iff.mp hx
    obtain ⟨j, _, rfl⟩ := List.mem_map.mp this
    omega
  obtain ⟨js, hjs⟩ := exists_natCast_rep _ hnonneg
  have hmemiff : ∀ x, x ∈ js ↔ x ∈ is := by
    intro x
    constructor
    · intro hx
      have : ((x : Nat) : Int) ∈ js.map (fun (j : Nat) => (j : Int)) :=
        List.mem_map.mpr ⟨x, hx, rfl⟩
      rw [← hjs] at this
      have := hperm.mem_iff.mp this
      obtain ⟨j, hj, hcast⟩ := List.mem_map.mp this
      have : j = x := by omega
      exact this ▸ hj
    · intro hx
      have : ((x : Nat) : Int) ∈ is.map (fun (j : Nat) => (j : Int)) :=
        List.mem_map.mpr ⟨x, hx, rfl⟩
      rw [← hperm.mem_iff, hjs] at this
      obtain ⟨j, hj, hcast⟩ := List.mem_map.mp this
      have : j = x := by omega
      exact this ▸ hj
  have hjlt : ∀ j ∈ js, j < N := fun j hj => hlt j ((hmemiff j).mp hj)
  refine ⟨js, hjs, ?_, hmemiff, hjlt⟩
  have hnodupMap : (is.map (fun (j : Nat) => (j : Int))).Nodup :=
    hnd.map (fun x y hxy => by omega)
  have hnodupJs : js.Nodup := by
    have h1 : (js.map (fun (j : Nat) => (j : Int))).Nodup := by
      rw [← hjs]
      exact hperm.symm.nodup hnodupMap
    exact List.Nodup.of_map _ h1
  have hge : js.Pairwise (fun a b => b ≤ a) := by
    have h1 := hjs ▸ hsorted
    have h2 := List.pairwise_map.mp h1
    refine h2.imp_of_mem ?_
    intro a b ha hb hab
    rw [pyMod_natCast a N (hjlt a ha), pyMod_natCast b N (hjlt b hb)] at hab
    exact hab
  refine (hge.and hnodupJs).imp ?_
  intro a b hab
  exact lt_of_le_of_ne hab.1 (Ne.symm hab.2)

end ClaimsE

section ClaimsF

variable {V M : Type} [DecidableEq M] [DecidableEq V]

/-- C3 (amended): for distinct non-negative indices in range of the current
result, `PopResult` removes exactly the elements at those positions
(the indices are processed from highest to lowest, so earlier removals do
not shift later ones); and `PopResult(-1)` removes the same element as
`PopResult(N-1)` on a result of length `N ≥ 1`.  (Out-of-range indices
raise `IndexError` instead of wrapping — see the counterexample.) -/
theorem C3_pop_result (l : List V) (is : List Nat)
    (hnd : is.Nodup) (hlt : ∀ i ∈ is, i < l.length) :
    popResultPy (is.map (fun (j : Nat) => (j : Int))) l =
      .ok (removeAtPositions is 0 l) ∧
    (∀ l2 : List V, l2 ≠ [] →
      popResultPy [(-1 : Int)] l2 = popResultPy [((l2.length - 1 : Nat) : Int)] l2) := by
  constructor
  · by_cases his : is = []
    · subst his
      simp only [List.map_nil, popResultPy, List.isEmpty_nil, if_true]
      rw [removeAtPositions_all_lt [] l 0 (by simp)]
    · have hlne : l ≠ [] := by
        rcases is with _ | ⟨i0, is0⟩
        · exact absurd rfl his
        · have := hlt i0 (List.mem_cons_self i0 is0)
          intro hc
          rw [hc] at this
          simp at this
      have h1 : (is.map (fun (j : Nat) => (j : Int))).isEmpty = false := by
        simp [List.isEmpty_iff, his]
      have h2 : l.isEmpty = false := by simp [List.isEmpty_iff, hlne]
      simp only [popResultPy, h1, h2, Bool.false_eq_true, if_false]
      obtain ⟨js, hjs, hpw, hmemiff, hjlt⟩ := pySortedDesc_natRep is l.length hnd hlt
      rw [hjs, popLoop_desc js l hpw hjlt, removeAtPositions_congr js is hmemiff l 0]
  · intro l2 hne
    have hlen : 0 < l2.length := List.length_pos.mpr hne
    have h2 : l2.isEmpty = false := by simp [List.isEmpty_iff, hne]
    have e1 : pySortedDesc (fun k => pyMod k l2.length) [(-1 : Int)] = [(-1 : Int)] := rfl
    have e2 : pySortedDesc (fun k => pyMod k l2.length) [((l2.length - 1 : Nat) : Int)] =
        [((l2.length - 1 : Nat) : Int)] := rfl
    simp only [popResultPy, h2, List.isEmpty_cons, Bool.false_eq_true, if_false]
    rw [e1, e2]
    simp only [popLoop, pyPopIdx_neg_one l2 hne,
      pyPopIdx_natCast (l2.length - 1) l2 (by omega)]

/-- C3 counterexample: `PopResult(3)` on a two-element result.  The claimed
wrap-around semantics would remove the element at position `3 % 2 = 1`; the
code instead sorts with the modulo key but then calls `list.pop(3)`, which
raises `IndexError`. -/
theorem C3_pop_result_counterexample :
    popResultPy [(3 : Int)] ([10, 20] : List Nat) = .error (.indexError, [10, 20]) ∧
    popResultPy [(3 : Int)] ([10, 20] : List Nat) ≠ .ok [10] := by
  constructor
  · decide
  · decide

/-- C3 witness: `PopResult(0, 2)` on `[10, 20, 30]` removes positions 0 and
2, and `PopResult(-1)` agrees with `PopResult(1)` on a two-element
result. -/
theorem C3_pop_result_witness :
    popResultPy (([0, 2] : List Nat).map (fun (j : Nat) => (j : Int)))
      ([10, 20, 30] : List Nat) = .ok [20] ∧
    popResultPy [(-1 : Int)] ([7, 8] : List Nat) = popResultPy [(1 : Int)] [7, 8] := by
  have h := C3_pop_result ([10, 20, 30] : List Nat) [0, 2] (by decide) (by decide)
  constructor
  · rw [h.1]
    decide
  · have h2 := h.2 [7, 8] (by decide)
    simpa using h2

end ClaimsF

section ClaimsG

variable {V M : Type} [DecidableEq M] [DecidableEq V]

/-- Stack discipline: while a member `A` sits on the dependency stack (and
is not pending, and no executed action enqueues it), every member above it
on the stack is invoked before any invocation of `A`. -/
theorem run_below_stack (call : M → CouncilCallState V M → Outcome V M) (A : M)
    (hcall : ∀ (m : M) (σ : CouncilCallState V M),
      A ∉ enqTargets (normalizeOutcome (call m σ))) :
    ∀ (tr : List M) (σ σf : CouncilCallState V M), Run call σ tr σf →
    ∀ (s rest : List M), σ.dependency_stack = s ++ A :: rest → A ∉ rest →
      A ∉ σ.pending_members →
    ∀ (k : Nat), tr.get? k = some A →
    ∀ x ∈ rest, ∃ i, i < k ∧ tr.get? i = some x := by
  intro tr σ σf hrun
  induction hrun with
  | nil σa =>
    intro s rest hstack hAr hAp k hk x hx
    simp at hk
  | step σa σ1 σ2 σ3 m tr2 hs hx hr ih =>
    intro s rest hstack hAr hAp k hk x hxrest
    rcases rest with _ | ⟨r0, rrest⟩
    · simp at hxrest
    · have hne : (r0 :: rrest : List M) ≠ [] := by simp
      obtain ⟨front, last, hfl⟩ :
          ∃ front last, (r0 :: rrest : List M) = front ++ [last] :=
        ⟨(r0 :: rrest).dropLast, (r0 :: rrest).getLast hne,
          (List.dropLast_append_getLast hne).symm⟩
      have hAfront : A ∉ front := fun hc => hAr (hfl ▸ List.mem_append_left _ hc)
      have hAlast : A ≠ last := by
        intro hc
        exact hAr (hfl ▸ List.mem_append_right _ (hc ▸ List.mem_cons_self _ _))
      cases hs with
      | pending _ _ hs0 hm hs0' hp0 hr0 =>
        rw [hstack] at hs0
        simp at hs0
      | stack _ _ hst hp0 hr0 =>
        have hst2 : σ1.dependency_stack ++ [m] = (s ++ A :: front) ++ [last] := by
          rw [← hst, hstack, hfl]
          simp
        obtain ⟨hstk1, hml⟩ := List.append_inj' hst2 rfl
        have hml2 : m = last := by simpa using hml
        have hAm : A ≠ m := hml2 ▸ hAlast
        have hA1p : A ∉ σ1.pending_members := by rw [hp0]; exact hAp
        obtain ⟨⟨q, hq, hqmem⟩, hpend⟩ := execA_frame _ m σ1 true σ2 hx
        have hAq : A ∉ q := by
          intro hc
          rcases hqmem A hc with h | h | h
          · exact hAm h
          · exact hA1p h
          · exact hcall m σ1 h
        have hstack2 : σ2.dependency_stack = s ++ A :: (front ++ q) := by
          rw [hq, hstk1]
          simp
        have hArest2 : A ∉ front ++ q := by
          intro hc
          rcases List.mem_append.mp hc with h | h
          · exact hAfront h
          · exact hAq h
        have hA2p : A ∉ σ2.pending_members := by
          intro hc
          rcases hpend A hc with h | h
          · exact hA1p h
          · exact hcall m σ1 h
        have ihs := ih s (front ++ q) hstack2 hArest2 hA2p
        cases k with
        | zero =>
          simp at hk
          exact absurd hk.symm hAm
        | succ k2 =>
          have hk2 : tr2.get? k2 = some A := by simpa using hk
          have hxfl : x ∈ front ++ [last] := hfl ▸ hxrest
          rcases List.mem_append.mp hxfl with hxf | hxl
          · obtain ⟨i, hik, hi⟩ := ihs k2 hk2 x (List.mem_append_left q hxf)
            exact ⟨i + 1, by omega, by simpa using hi⟩
          · have hxm : x = m := by
              rw [hml2]
              simpa using hxl
            exact ⟨0, by omega, by simp [hxm]⟩

end ClaimsG

section ClaimsH

variable {V M : Type} [DecidableEq M] [DecidableEq V]

/-- C2 (amended): if member `A` returns `Postpone(B, C)` with `B` and `C`
pending (and `A` itself no longer pending), then in any subsequent run in
which no member's action enqueues `A` — so nothing can push `A` onto the
dependency stack above its own entry — every invocation of `A`, in
particular its second one, is strictly preceded by invocations of both `B`
and `C` (whose effects on `partial_result` are therefore already applied,
the engine being sequential). -/
theorem C2_postpone_order (call : M → CouncilCallState V M → Outcome V M)
    (A B C : M) (σ1 σ0 σf : CouncilCallState V M) (tr : List M) (k : Nat)
    (hcall : ∀ (m : M) (σ : CouncilCallState V M),
      A ∉ enqTargets (normalizeOutcome (call m σ)))
    (hout : normalizeOutcome (call A σ1) = .postpone [B, C])
    (hx : execA (normalizeOutcome (call A σ1)) A σ1 = .ok (true, σ0))
    (hApend : A ∉ σ1.pending_members)
    (hAB : A ≠ B) (hAC : A ≠ C)
    (hrun : Run call σ0 tr σf) (hk : tr.get? k = some A) :
    (∃ i, i < k ∧ tr.get? i = some B) ∧ (∃ j, j < k ∧ tr.get? j = some C) := by
  rw [hout] at hx
  simp only [execA] at hx
  cases hpl : postponeLoop [B, C]
      { σ1 with dependency_stack := σ1.dependency_stack ++ [A] } with
  | error e => rw [hpl] at hx; cases hx
  | ok σp =>
    rw [hpl] at hx
    cases hx
    simp only [postponeLoop] at hpl
    by_cases hB : B ∈ σ1.pending_members
    · rw [if_pos hB] at hpl
      by_cases hC : C ∈ σ1.pending_members.erase B
      · rw [if_pos hC] at hpl
        cases hpl
        have hstack : (⟨(σ1.dependency_stack ++ [A] ++ [B]) ++ [C],
            (σ1.pending_members.erase B).erase C, σ1.partial_result⟩ :
              CouncilCallState V M).dependency_stack =
            σ1.dependency_stack ++ A :: [B, C] := by
          simp
        have hAp0 : A ∉ ((σ1.pending_members.erase B).erase C) := by
          intro hc
          exact hApend (Finset.mem_of_mem_erase (Finset.mem_of_mem_erase hc))
        have hArest : A ∉ ([B, C] : List M) := by
          intro hc
          rcases List.mem_cons.mp hc with rfl | hc
          · exact hAB rfl
          · rcases List.mem_cons.mp hc with rfl | hc
            · exact hAC rfl
            · simp at hc
        have h := run_below_stack call A hcall tr _ σf hrun
          σ1.dependency_stack [B, C] hstack hArest hAp0 k hk
        exact ⟨h B (by simp), h C (by simp)⟩
      · rw [if_neg hC] at hpl
        cases hpl
    · rw [if_neg hB] at hpl
      cases hpl

end ClaimsH

section ClaimsI

/-- C2 counterexample: a complete call of the engine on members
`{0, 1, 2}` driven by `callC2`.  Member 0 (A) returns `Postpone(1, 2)` at
its first invocation, with 1 (B) and 2 (C) in the pending set; member 2
then enqueues 0 and postpones on it, so the invocation trace is
`[0, 2, 0, 2, 1, 0]`: A's second invocation (index 2) happens before B's
first invocation (index 4), refuting the unconditional ordering law. -/
theorem C2_postpone_order_counterexample :
    CallResult callC2 ⟨[], {0, 1, 2}, []⟩ [0, 2, 0, 2, 1, 0] [10, 20, 10] ∧
    callC2 0 ⟨[], {1, 2}, []⟩ = .action (.postpone [1, 2]) ∧
    (1 ∈ ({1, 2} : Finset Nat) ∧ 2 ∈ ({1, 2} : Finset Nat)) ∧
    [0, 2, 0, 2, 1, 0].get? 0 = some 0 ∧
    [0, 2, 0, 2, 1, 0].get? 2 = some 0 ∧
    (∀ i, i < 2 → [0, 2, 0, 2, 1, 0].get? i ≠ some 1) := by
  refine ⟨?_, rfl, by decide, by decide, by decide, by decide⟩
  refine CallResult.step _ ⟨[], {1, 2}, []⟩ ⟨[0, 1, 2], ∅, []⟩ 0 _ _
    (Selects.pending _ _ 0 rfl (by decide) rfl (by decide) rfl) (by rfl) ?_
  refine CallResult.step _ ⟨[0, 1], ∅, []⟩ ⟨[0, 1, 2, 0], ∅, []⟩ 2 _ _
    (Selects.stack _ _ 2 rfl rfl rfl) (by rfl) ?_
  refine CallResult.step _ ⟨[0, 1, 2], ∅, []⟩ ⟨[0, 1, 2], ∅, [10]⟩ 0 _ _
    (Selects.stack _ _ 0 rfl rfl rfl) (by rfl) ?_
  refine CallResult.step _ ⟨[0, 1], ∅, [10]⟩ ⟨[0, 1], ∅, [10]⟩ 2 _ _
    (Selects.stack _ _ 2 rfl rfl rfl) (by rfl) ?_
  refine CallResult.step _ ⟨[0], ∅, [10]⟩ ⟨[0], ∅, [10, 20]⟩ 1 _ _
    (Selects.stack _ _ 1 rfl rfl rfl) (by rfl) ?_
  refine CallResult.step _ ⟨[], ∅, [10, 20]⟩ ⟨[], ∅, [10, 20, 10]⟩ 0 _ _
    (Selects.stack _ _ 0 rfl rfl rfl) (by rfl) ?_
  exact CallResult.done _ rfl rfl

/-- C2 witness: for the well-behaved members `callC2W` (which never
enqueue), after member 0 postpones on 1 and 2, the trace `[2, 1, 0]` has
both 1 and 2 invoked before member 0's reinvocation at index 2. -/
theorem C2_postpone_order_witness :
    (∃ i, i < 2 ∧ [2, 1, 0].get? i = some 1) ∧
    (∃ j, j < 2 ∧ [2, 1, 0].get? j = some 2) := by
  refine C2_postpone_order callC2W 0 1 2 ⟨[], {1, 2}, []⟩ ⟨[0, 1, 2], ∅, []⟩
    ⟨[], ∅, [2, 1, 10]⟩ [2, 1, 0] 2 ?_ (by simp [callC2W, normalizeOutcome])
    (by rfl) (by decide) (by decide) (by decide) ?_ (by decide)
  · intro m σ
    by_cases h0 : m = 0
    · subst h0
      by_cases h1 : (1 : Nat) ∈ σ.pending_members
      · simp [callC2W, h1, normalizeOutcome, enqTargets]
      · simp [callC2W, h1, normalizeOutcome, enqTargets]
    · simp [callC2W, h0, normalizeOutcome, enqTargets]
  · refine Run.step _ ⟨[0, 1], ∅, []⟩ ⟨[0, 1], ∅, [2]⟩ _ 2 _
      (Selects.stack _ _ 2 rfl rfl rfl) (by rfl) ?_
    refine Run.step _ ⟨[0], ∅, [2]⟩ ⟨[0], ∅, [2, 1]⟩ _ 1 _
      (Selects.stack _ _ 1 rfl rfl rfl) (by rfl) ?_
    refine Run.step _ ⟨[], ∅, [2, 1]⟩ ⟨[], ∅, [2, 1, 10]⟩ _ 0 _
      (Selects.stack _ _ 0 rfl rfl rfl) (by rfl) ?_
    exact Run.nil _

end ClaimsI

section ClaimsJ

variable {V M : Type} [DecidableEq M] [DecidableEq V]

/-- The postpone loop preserves the one-place invariant: it moves pending
members (never stack members) onto the stack. -/
theorem postponeLoop_inv (wf : List M) :
    ∀ (σ σ' : CouncilCallState V M), StateInv σ → postponeLoop wf σ = .ok σ' →
    StateInv σ' ∧
    (∀ y ∈ σ'.dependency_stack, y ∈ σ.dependency_stack ∨ y ∈ wf) ∧
    (∀ y ∈ σ'.pending_members, y ∈ σ.pending_members) := by
  induction wf with
  | nil =>
    intro σ σ' hInv h
    simp only [postponeLoop] at h
    cases h
    exact ⟨hInv, fun y hy => .inl hy, fun y hy => hy⟩
  | cons w rest ih =>
    intro σ σ' hInv h
    simp only [postponeLoop] at h
    by_cases hw : w ∈ σ.pending_members
    · rw [if_pos hw] at h
      have hwstk : w ∉ σ.dependency_stack := fun hc => hInv.2 w hc hw
      have hInv2 : StateInv
          { σ with pending_members := σ.pending_members.erase w,
                   dependency_stack := σ.dependency_stack ++ [w] } := by
        constructor
        · exact hInv.1.append (List.nodup_singleton w)
            (fun x hx hx2 => by
              rw [List.mem_singleton] at hx2
              exact hwstk (hx2 ▸ hx))
        · intro x hx
          rcases List.mem_append.mp hx with hx | hx
          · exact fun hc => hInv.2 x hx (Finset.mem_of_mem_erase hc)
          · rw [List.mem_singleton] at hx
            subst hx
            exact Finset.not_mem_erase x σ.pending_members
      obtain ⟨hI, hstk, hpnd⟩ := ih _ _ hInv2 h
      refine ⟨hI, ?_, ?_⟩
      · intro y hy
        rcases hstk y hy with h2 | h2
        · rcases List.mem_append.mp h2 with h3 | h3
          · exact .inl h3
          · rw [List.mem_singleton] at h3
            exact .inr (h3 ▸ List.mem_cons_self w rest)
        · exact .inr (List.mem_cons_of_mem w h2)
      · intro y hy
        exact Finset.mem_of_mem_erase (hpnd y hy)
    · rw [if_neg hw] at h
      cases h

mutual

/-- Invariant preservation for a single action execution: if the state
satisfies the one-place invariant, the current member is in neither place,
the action postpones at most once, and no enqueue target is on the stack,
equals the current member, or is postponed on, then the invariant holds
afterwards; moreover the stack only gains the current member and
postponed-on members, and the pending set only gains enqueue targets. -/
theorem execA_inv (a : MemberAction V M) :
    ∀ (m : M) (σ : CouncilCallState V M) (b : Bool) (σ' : CouncilCallState V M),
    StateInv σ → m ∉ σ.pending_members →
    (m ∈ σ.dependency_stack → postponeCount a = 0) →
    postponeCount a ≤ 1 →
    (∀ x ∈ enqTargets a, x ∉ σ.dependency_stack ∧ x ≠ m ∧ x ∉ waitForsA a) →
    execA a m σ = .ok (b, σ') →
    StateInv σ' ∧
    (∀ y ∈ σ'.dependency_stack, y ∈ σ.dependency_stack ∨ y = m ∨ y ∈ waitForsA a) ∧
    (∀ y ∈ σ'.pending_members, y ∈ σ.pending_members ∨ y ∈ enqTargets a) ∧
    (m ∈ σ'.dependency_stack → m ∈ σ.dependency_stack ∨ 1 ≤ postponeCount a) := by
  intro m σ b σ' hI hm hp3 hpc henq h
  cases a with
  | cont =>
    cases h
    exact ⟨hI, fun y hy => .inl hy, fun y hy => .inl hy, fun hc => .inl hc⟩
  | brk =>
    cases h
    exact ⟨hI, fun y hy => .inl hy, fun y hy => .inl hy, fun hc => .inl hc⟩
  | extend gs =>
    cases h
    exact ⟨hI, fun y hy => .inl hy, fun y hy => .inl hy, fun hc => .inl hc⟩
  | append vs =>
    cases h
    exact ⟨hI, fun y hy => .inl hy, fun y hy => .inl hy, fun hc => .inl hc⟩
  | clearResult =>
    cases h
    exact ⟨hI, fun y hy => .inl hy, fun y hy => .inl hy, fun hc => .inl hc⟩
  | removeResult vs =>
    simp only [execA] at h
    cases heq : removeLoop vs σ.partial_result with
    | error e => rw [heq] at h; cases h
    | ok l =>
      rw [heq] at h
      cases h
      exact ⟨hI, fun y hy => .inl hy, fun y hy => .inl hy, fun hc => .inl hc⟩
  | popResult idxs =>
    simp only [execA] at h
    cases heq : popResultPy idxs σ.partial_result with
    | error e => obtain ⟨e1, e2⟩ := e; rw [heq] at h; cases h
    | ok l =>
      rw [heq] at h
      cases h
      exact ⟨hI, fun y hy => .inl hy, fun y hy => .inl hy, fun hc => .inl hc⟩
  | enqueue ms =>
    cases h
    refine ⟨⟨hI.1, ?_⟩, fun y hy => .inl hy, ?_, fun hc => .inl hc⟩
    · intro x hx hc
      rcases Finset.mem_union.mp hc with hc | hc
      · exact hI.2 x hx hc
      · refine (henq x ?_).1 hx
        simpa [enqTargets] using hc
    · intro y hy
      rcases Finset.mem_union.mp hy with hy | hy
      · exact .inl hy
      · exact .inr (by simpa [enqTargets] using hy)
  | postpone wf =>
    have hms : m ∉ σ.dependency_stack := by
      intro hc
      have := hp3 hc
      simp [postponeCount] at this
    simp only [execA] at h
    cases heq : postponeLoop wf
        { σ with dependency_stack := σ.dependency_stack ++ [m] } with
    | error e => rw [heq] at h; cases h
    | ok σp =>
      rw [heq] at h
      cases h
      have hIpush : StateInv
          { σ with dependency_stack := σ.dependency_stack ++ [m] } := by
        constructor
        · exact hI.1.append (List.nodup_singleton m)
            (fun x hx hx2 => by
              rw [List.mem_singleton] at hx2
              exact hms (hx2 ▸ hx))
        · intro x hx
          rcases List.mem_append.mp hx with hx | hx
          · exact hI.2 x hx
          · rw [List.mem_singleton] at hx
            exact hx ▸ hm
      obtain ⟨hIp, hstk, hpnd⟩ := postponeLoop_inv wf _ _ hIpush heq
      refine ⟨hIp, ?_, fun y hy => .inl (hpnd y hy), fun _ => .inr (by simp [postponeCount])⟩
      intro y hy
      rcases hstk y hy with h2 | h2
      · rcases List.mem_append.mp h2 with h3 | h3
        · exact .inl h3
        · rw [List.mem_singleton] at h3
          exact .inr (.inl h3)
      · exact .inr (.inr (by simpa [waitForsA] using h2))
  | joined parts =>
    simp only [execA] at h
    have hp3' : m ∈ σ.dependency_stack → postponeCountList parts = 0 := by
      intro hc
      have := hp3 hc
      simpa [postponeCount] using this
    have hpc' : postponeCountList parts ≤ 1 := by
      simpa [postponeCount] using hpc
    have henq' : ∀ x ∈ enqTargetsList parts,
        x ∉ σ.dependency_stack ∧ x ≠ m ∧ x ∉ waitForsList parts := by
      intro x hx
      have := henq x (by simpa [enqTargets] using hx)
      refine ⟨this.1, this.2.1, ?_⟩
      have h3 := this.2.2
      simpa [waitForsA] using h3
    obtain ⟨hIr, hstk, hpnd, hflag⟩ := execList_inv parts m σ b σ' hI hm hp3' hpc' henq' h
    refine ⟨hIr, ?_, ?_, ?_⟩
    · intro y hy
      rcases hstk y hy with h2 | h2 | h2
      · exact .inl h2
      · exact .inr (.inl h2)
      · exact .inr (.inr (by simpa [waitForsA] using h2))
    · intro y hy
      rcases hpnd y hy with h2 | h2
      · exact .inl h2
      · exact .inr (by simpa [enqTargets] using h2)
    · intro hc
      rcases hflag hc with h2 | h2
      · exact .inl h2
      · exact .inr (by simpa [postponeCount] using h2)

/-- The part-list version of `execA_inv`. -/
theorem execList_inv (parts : List (MemberAction V M)) :
    ∀ (m : M) (σ : CouncilCallState V M) (b : Bool) (σ' : CouncilCallState V M),
    StateInv σ → m ∉ σ.pending_members →
    (m ∈ σ.dependency_stack → postponeCountList parts = 0) →
    postponeCountList parts ≤ 1 →
    (∀ x ∈ enqTargetsList parts,
      x ∉ σ.dependency_stack ∧ x ≠ m ∧ x ∉ waitForsList parts) →
    execList parts m σ = .ok (b, σ') →
    StateInv σ' ∧
    (∀ y ∈ σ'.dependency_stack,
      y ∈ σ.dependency_stack ∨ y = m ∨ y ∈ waitForsList parts) ∧
    (∀ y ∈ σ'.pending_members, y ∈ σ.pending_members ∨ y ∈ enqTargetsList parts) ∧
    (m ∈ σ'.dependency_stack → m ∈ σ.dependency_stack ∨ 1 ≤ postponeCountList parts) := by
  intro m σ b σ' hI hm hp3 hpc henq h
  cases parts with
  | nil =>
    simp only [execList] at h
    cases h
    exact ⟨hI, fun y hy => .inl hy, fun y hy => .inl hy, fun hc => .inl hc⟩
  | cons p rest =>
    simp only [execList] at h
    cases heq1 : execA p m σ with
    | error e => rw [heq1] at h; cases h
    | ok v1 =>
      obtain ⟨b1, σ1⟩ := v1
      rw [heq1] at h
      dsimp only at h
      cases heq2 : execList rest m σ1 with
      | error e => rw [heq2] at h; cases h
      | ok v2 =>
        obtain ⟨b2, σ2⟩ := v2
        rw [heq2] at h
        dsimp only at h
        cases h
        have hwfp : ∀ x, x ∈ waitForsA p → x ∈ waitForsList (p :: rest) := by
          intro x hx
          simp [waitForsList, hx]
        have hwfr : ∀ x, x ∈ waitForsList rest → x ∈ waitForsList (p :: rest) := by
          intro x hx
          simp [waitForsList, hx]
        have henqp : ∀ x ∈ enqTargets p,
            x ∉ σ.dependency_stack ∧ x ≠ m ∧ x ∉ waitForsA p := by
          intro x hx
          have := henq x (by simp [enqTargetsList, hx])
          exact ⟨this.1, this.2.1, fun hc => this.2.2 (hwfp x hc)⟩
        have hp3p : m ∈ σ.dependency_stack → postponeCount p = 0 := by
          intro hc
          have := hp3 hc
          simp [postponeCountList] at this
          omega
        have hpcp : postponeCount p ≤ 1 := by
          simp [postponeCountList] at hpc
          omega
        obtain ⟨hI1, hstk1, hpnd1, hflag1⟩ :=
          execA_inv p m σ b1 σ1 hI hm hp3p hpcp henqp heq1
        have hm1 : m ∉ σ1.pending_members := by
          intro hc
          rcases hpnd1 m hc with h2 | h2
          · exact hm h2
          · exact (henq m (by simp [enqTargetsList, h2])).2.1 rfl
        have hp3r : m ∈ σ1.dependency_stack → postponeCountList rest = 0 := by
          intro hc
          rcases hflag1 hc with h2 | h2
          · have := hp3 h2
            simp [postponeCountList] at this
            omega
          · simp [postponeCountList] at hpc
            omega
        have hpcr : postponeCountList rest ≤ 1 := by
          simp [postponeCountList] at hpc
          omega
        have henqr : ∀ x ∈ enqTargetsList rest,
            x ∉ σ1.dependency_stack ∧ x ≠ m ∧ x ∉ waitForsList rest := by
          intro x hx
          have hbig := henq x (by simp [enqTargetsList, hx])
          refine ⟨?_, hbig.2.1, fun hc => hbig.2.2 (hwfr x hc)⟩
          intro hc
          rcases hstk1 x hc with h2 | h2 | h2
          · exact hbig.1 h2
          · exact hbig.2.1 h2
          · exact hbig.2.2 (hwfp x h2)
        obtain ⟨hI2, hstk2, hpnd2, hflag2⟩ :=
          execList_inv rest m σ1 _ _ hI1 hm1 hp3r hpcr henqr heq2
        refine ⟨hI2, ?_, ?_, ?_⟩
        · intro y hy
          rcases hstk2 y hy with h2 | h2 | h2
          · rcases hstk1 y h2 with h3 | h3 | h3
            · exact .inl h3
            · exact .inr (.inl h3)
            · exact .inr (.inr (hwfp y h3))
          · exact .inr (.inl h2)
          · exact .inr (.inr (hwfr y h2))
        · intro y hy
          rcases hpnd2 y hy with h2 | h2
          · rcases hpnd1 y h2 with h3 | h3
            · exact .inl h3
            · exact .inr (by simp [enqTargetsList, h3])
          · exact .inr (by simp [enqTargetsList, h2])
        · intro hc
          rcases hflag2 hc with h2 | h2
          · rcases hflag1 h2 with h3 | h3
            · exact .inl h3
            · refine .inr ?_
              simp [postponeCountList]
              omega
          · refine .inr ?_
            simp [postponeCountList]
            omega

end

end ClaimsJ

section ClaimsK

variable {V M : Type} [DecidableEq M] [DecidableEq V]

/-- C4 (amended): starting from a state satisfying the one-place invariant
(each member in at most one of pending set and dependency stack, at most
once), with the popped current member in neither place, executing the
returned action preserves the invariant provided the action contains at
most one `Postpone` part and none of its `Enqueue` targets is currently on
the dependency stack, equal to the current member, or postponed on by the
same action; moreover the stack gains only the current member and
postponed-on members, and the pending set gains only enqueue targets
(popped members are never reinserted any other way).  `Enqueue` of a member
currently on the dependency stack, by contrast, puts that member in both
places — see the counterexample. -/
theorem C4_one_place_invariant (a : MemberAction V M) (m : M)
    (σ : CouncilCallState V M) (b : Bool) (σ' : CouncilCallState V M)
    (hI : StateInv σ) (hmp : m ∉ σ.pending_members) (hms : m ∉ σ.dependency_stack)
    (hpc : postponeCount a ≤ 1)
    (henq : ∀ x ∈ enqTargets a, x ∉ σ.dependency_stack ∧ x ≠ m ∧ x ∉ waitForsA a)
    (hx : execA a m σ = .ok (b, σ')) :
    StateInv σ' ∧
    (∀ y ∈ σ'.dependency_stack, y ∈ σ.dependency_stack ∨ y = m ∨ y ∈ waitForsA a) ∧
    (∀ y ∈ σ'.pending_members, y ∈ σ.pending_members ∨ y ∈ enqTargets a) := by
  obtain ⟨h1, h2, h3, _⟩ :=
    execA_inv a m σ b σ' hI hmp (fun hc => absurd hc hms) hpc henq hx
  exact ⟨h1, h2, h3⟩

/-- C4 counterexample: `Enqueue(5)` executed while member 5 is on the
dependency stack puts member 5 in the pending set as well, so afterwards it
is in both places, violating the claimed invariant. -/
theorem C4_one_place_counterexample :
    StateInv (V := Nat) (M := Nat) ⟨[5], ∅, []⟩ ∧
    execA (V := Nat) (M := Nat) (.enqueue [5]) 9 ⟨[5], ∅, []⟩ =
      .ok (true, ⟨[5], {5}, []⟩) ∧
    ¬ StateInv (V := Nat) (M := Nat) ⟨[5], {5}, []⟩ := by
  refine ⟨by decide, by decide, by decide⟩

/-- C4 witness: a `Joined` of one `Postpone` and one fresh `Enqueue`
preserves the invariant on a concrete state. -/
theorem C4_one_place_witness :
    StateInv (V := Nat) (M := Nat) ⟨[1, 2, 0, 3], {4}, []⟩ :=
  (C4_one_place_invariant (.joined [.postpone [3], .enqueue [4]]) 0
    ⟨[1, 2], {3}, []⟩ true ⟨[1, 2, 0, 3], {4}, []⟩ (by decide) (by decide)
    (by decide) (by decide) (by decide) (by decide)).1

end ClaimsK
